import Mathlib

/-!
# Spacer: Kafka to HTTP router and write proxy

A shallow embedding of `main.go` and `pkg/write_proxy.go`.

Effectful Go code is embedded as pure functions that take the replies of the
outside world (HTTP handlers, the Kafka client, the iteration order of a Go
map) as arguments and return the list of effects they perform, in program
order.  Go strings and byte slices are byte sequences.
-/

namespace Spacer

/-! ## Byte strings -/

/-- Go strings and byte slices: finite sequences of bytes. -/
abbrev Bytes := List UInt8

/-- The bytes of a string constant of the Go source (UTF-8). -/
def str (s : String) : Bytes := s.data.flatMap String.utf8EncodeChar

/-! ## Go maps with string keys -/

/-- A Go map with string keys: an association list that `set` keeps free of
duplicate keys.  A nil map and an empty map are both the empty list. -/
abbrev GoMap (V : Type) := List (Bytes × V)

/-- The assignment `m[k] = v`: replaces the binding of `k` when there is one. -/
def GoMap.set {V : Type} : GoMap V → Bytes → V → GoMap V
  | [], k, v => [(k, v)]
  | (k0, v0) :: rest, k, v =>
    if k0 = k then (k, v) :: rest else (k0, v0) :: GoMap.set rest k v

/-- The two-valued index expression `v, ok := m[k]`. -/
def GoMap.get {V : Type} (m : GoMap V) (k : Bytes) : Option V := m.lookup k

/-- The order in which one `range` statement visits the entries of a Go map:
unspecified by the language, but every entry is visited exactly once. -/
structure RangeOrder (V : Type) where
  order : GoMap V → GoMap V
  perm : ∀ m, (order m).Perm m

/-- Visit the entries in stored order. -/
def RangeOrder.stored (V : Type) : RangeOrder V := ⟨id, fun m => List.Perm.refl m⟩

/-- Visit the entries in reverse stored order. -/
def RangeOrder.reversed (V : Type) : RangeOrder V :=
  ⟨List.reverse, fun m => List.reverse_perm m⟩

/-! ## The Kafka client types used by the code (confluent-kafka-go) -/

namespace kafka

/-- The type `kafka.TopicPartition`.  `Topic` is a `*string` in Go; the client
sets it on every message it delivers, and both dereferences in `main.go`
rely on that, so the embedding stores the string. -/
structure TopicPartition where
  Topic : Bytes
  Partition : Int
  Offset : Int
  Error : Option Bytes
deriving DecidableEq, Repr

/-- The type `kafka.Message`, with the fields the code reads or writes. -/
structure Message where
  TopicPartition : kafka.TopicPartition
  Value : Bytes
  Key : Bytes
deriving DecidableEq, Repr

/-- The constant `kafka.PartitionAny`, the unassigned partition. -/
def PartitionAny : Int := -1

/-- The result of `consumer.Poll`: nil or one of the event types the type
switch of the consumer loop distinguishes. -/
inductive Event where
  | none
  | AssignedPartitions (Partitions : List kafka.TopicPartition)
  | RevokedPartitions (Partitions : List kafka.TopicPartition)
  | Message (m : kafka.Message)
  | PartitionEOF (tp : kafka.TopicPartition)
  | Error (code : Int) (text : Bytes)
  | other (text : Bytes)
deriving DecidableEq, Repr

end kafka

/-! ## Effects and the outside world -/

/-- Severity of a log call on `appLogger`. -/
inductive Level where
  | info | warn | error | fatal
deriving DecidableEq, Repr

/-- The type `http.Response`, with the field the code reads. -/
structure Response where
  StatusCode : Int
deriving DecidableEq, Repr

/-- The pair `(resp, err)` returned by `http.Post`: a transport error or a
response. -/
inductive PostResult where
  | error (err : Bytes)
  | ok (resp : Response)
deriving DecidableEq, Repr

/-- One observable action of the router, with the reply it received. -/
inductive Effect where
  | log (level : Level) (text : String)
  | post (url contentType body : Bytes) (reply : PostResult)
  | closeBody
  | assign (Partitions : List kafka.TopicPartition)
  | unassign
  | commit (m : kafka.Message) (err : Option Bytes)
deriving DecidableEq, Repr

/-- The outside world of the router.  Each reply may depend on everything
the process has done so far (the history of effects) and on the arguments
of the call. -/
structure Env where
  httpPost : List Effect → Bytes → Bytes → Bytes → PostResult
  commitMessage : List Effect → kafka.Message → Option Bytes

/-! ## main.go -/

/-- Constant `APP_NAME`. -/
def APP_NAME : Bytes := str "PoESocial"

/-- Constant `DELEGATOR`. -/
def DELEGATOR : Bytes := str "http://localhost:8080"

/-- The route table built at the start of `main`. -/
def routes : GoMap Bytes :=
  GoMap.set [] (str "PoESocial_stat:UPDATE") (DELEGATOR ++ str "/" ++ str "get_stashes")

/-- The error value returned by `invoke`: the wrapped transport error of
`http.Post`, or the status code of a reply that is not 200. -/
inductive InvokeError where
  | postFailed (cause : Bytes)
  | notOk (StatusCode : Int)
deriving DecidableEq, Repr

/-- Function `invoke` (main.go 130-144).  `hist` is the history of effects
before the call; the result is the returned error (`none` is Go's nil) and the
effects of the call. -/
def invoke (env : Env) (hist : List Effect) (route : Bytes) (data : Bytes) :
    Option InvokeError × List Effect :=
  let e0 := [Effect.log .info "Invoking %s\n"]
  let reply := env.httpPost (hist ++ e0) route (str "application/json") data
  let e1 := e0 ++ [Effect.post route (str "application/json") data reply]
  match reply with
  | .error err => (some (.postFailed err), e1)
  | .ok resp =>
    if resp.StatusCode ≠ 200 then
      (some (.notOk resp.StatusCode), e1 ++ [Effect.closeBody])
    else
      (none, e1 ++ [Effect.closeBody])

/-- The conversion `string(b)` of a byte slice: a copy of the bytes. -/
def string (b : Bytes) : Bytes := b

/-- The conversion `[]byte(s)` of a string: a copy of the bytes. -/
def bytes (s : Bytes) : Bytes := s

/-- The two log calls that open the handling of a message (main.go 101, 104). -/
def onMessage : List Effect :=
  [.log .info "%% Message on ", .log .info "Looking up route "]

/-- How one iteration of the consumer loop ends: the loop polls again, or
`appLogger.Fatal` has ended the process. -/
inductive Control where
  | next
  | exit
deriving DecidableEq, Repr

/-- The body of the consumer loop (main.go 89-126) on one result of
`consumer.Poll`.  `table` is the route table, `hist` the effects so far. -/
def loopBody (table : GoMap Bytes) (env : Env) (hist : List Effect) :
    kafka.Event → Control × List Effect
  | .none => (.next, [])
  | .AssignedPartitions ps => (.next, [.log .info "e", .assign ps])
  | .RevokedPartitions _ => (.next, [.log .info "e", .unassign])
  | .Message e =>
    let routePath := e.TopicPartition.Topic ++ str ":UPDATE"
    match table.get routePath with
    | .none => (.next, onMessage ++ [.log .info "Route not found"])
    | .some url =>
      let r := invoke env (hist ++ onMessage) url (bytes (string e.Value))
      let e1 := onMessage ++ r.2
      match r.1 with
      | .some _ => (.next, e1 ++ [.log .error "Invocation Error: %v\n"])
      | .none =>
        let cerr := env.commitMessage (hist ++ e1) e
        let e2 := e1 ++ [Effect.commit e cerr]
        match cerr with
        | .some _ => (.next, e2 ++ [.log .error "Commit Error: %v %v\n"])
        | .none => (.next, e2)
  | .PartitionEOF _ => (.next, [.log .info "%% Reached"])
  | .Error _ _ => (.exit, [.log .fatal "%% Error"])
  | .other _ => (.next, [.log .info "Unknown"])

/-- The consumer loop (main.go 88-127) run on a finite sequence of poll
results: it stops at the first iteration that ends the process and is still
polling (`Control.next`) when the sequence is used up. -/
def consumerLoop (table : GoMap Bytes) (env : Env) :
    List Effect → List kafka.Event → Control × List Effect
  | _, [] => (.next, [])
  | hist, ev :: evs =>
    match loopBody table env hist ev with
    | (.exit, es) => (.exit, es)
    | (.next, es) =>
      let r := consumerLoop table env (hist ++ es) evs
      (r.1, es ++ r.2)

/-- How the delivery-report goroutine stands after a finite sequence of
producer events: it has executed `return`, `appLogger.Fatal` has ended the
process, or it is still in the `range` loop waiting for the next event. -/
inductive TaskEnd where
  | returned
  | exit
  | waiting
deriving DecidableEq, Repr

/-- An event on `producer.Events()`: a delivery report (`*kafka.Message`) or
anything else. -/
inductive ProducerEvent where
  | Message (m : kafka.Message)
  | other (text : Bytes)
deriving DecidableEq, Repr

/-- The delivery-report goroutine (main.go 40-56) on a finite sequence of
events of `producer.Events()`. -/
def deliveryTask : List ProducerEvent → TaskEnd × List Effect
  | [] => (.waiting, [])
  | .Message m :: _ =>
    if m.TopicPartition.Error ≠ none then
      (.exit, [.log .fatal "delivery failed"])
    else
      (.returned, [.log .info "Delivered message to topic %s [%d] at offset %v\n"])
  | .other _ :: rest =>
    let r := deliveryTask rest
    (r.1, Effect.log .info "Ignored event: %s\n" :: r.2)

/-- The messages passed to `consumer.CommitMessage`, in order. -/
def commits : List Effect → List kafka.Message
  | [] => []
  | .commit m _ :: rest => m :: commits rest
  | _ :: rest => commits rest

/-- The calls of `http.Post`, in order: URL, content type and body. -/
def posts : List Effect → List (Bytes × Bytes × Bytes)
  | [] => []
  | .post url ct body _ :: rest => (url, ct, body) :: posts rest
  | _ :: rest => posts rest

/-- The messages among a sequence of poll results, in poll order. -/
def polled : List kafka.Event → List kafka.Message
  | [] => []
  | .Message m :: rest => m :: polled rest
  | _ :: rest => polled rest

/-! ## encoding/json

`json.Unmarshal` is library code.  The model below follows the documented
behaviour of Go's `encoding/json` for a destination struct with one string
field and one `map[string]json.RawMessage` field: the whole input is checked
against the JSON grammar first, then the top-level value is decoded. -/

namespace json

/-- JSON white space: space, tab, line feed, carriage return. -/
def isSpace (c : UInt8) : Bool := c = 0x20 || c = 0x09 || c = 0x0A || c = 0x0D

/-- Drop leading white space. -/
def skipSpace : Bytes → Bytes
  | [] => []
  | c :: rest => if isSpace c then skipSpace rest else c :: rest

/-- An ASCII digit. -/
def isDigit (c : UInt8) : Bool := 0x30 ≤ c && c ≤ 0x39

/-- The value of a hexadecimal digit. -/
def hexVal (c : UInt8) : Option Nat :=
  if 0x30 ≤ c && c ≤ 0x39 then some (c.toNat - 0x30)
  else if 0x61 ≤ c && c ≤ 0x66 then some (c.toNat - 0x61 + 10)
  else if 0x41 ≤ c && c ≤ 0x46 then some (c.toNat - 0x41 + 10)
  else none

/-- The number written by four hexadecimal digits. -/
def hex4 (a b c d : UInt8) : Option Nat :=
  match hexVal a, hexVal b, hexVal c, hexVal d with
  | some x, some y, some z, some w => some (((x * 16 + y) * 16 + z) * 16 + w)
  | _, _, _, _ => none

/-- Where the scanner stands inside a string literal: between characters,
right after a backslash, or in a `\u` escape with `n + 1` hexadecimal digits
still to come. -/
inductive InString where
  | char
  | esc
  | hex (n : Nat)
deriving DecidableEq, Repr

/-- Put a scanned byte in front of the bytes scanned after it. -/
def keep (c : UInt8) : Option (Bytes × Bytes) → Option (Bytes × Bytes)
  | some (body, r) => some (c :: body, r)
  | none => none

/-- Scan the rest of a string literal, one byte a step: the bytes up to the
closing quote (escapes left as written) and the input after the quote.
Control characters and unknown escapes are syntax errors. -/
def scanStringFrom : InString → Bytes → Option (Bytes × Bytes)
  | _, [] => none
  | .char, c :: rest =>
    if c = 0x22 then some ([], rest)
    else if c = 0x5C then keep c (scanStringFrom .esc rest)
    else if c < 0x20 then none
    else keep c (scanStringFrom .char rest)
  | .esc, c :: rest =>
    if c = 0x22 || c = 0x5C || c = 0x2F || c = 0x62 || c = 0x66 || c = 0x6E
        || c = 0x72 || c = 0x74 then
      keep c (scanStringFrom .char rest)
    else if c = 0x75 then keep c (scanStringFrom (.hex 3) rest)
    else none
  | .hex n, c :: rest =>
    if (hexVal c).isSome then
      keep c (scanStringFrom (match n with | 0 => .char | k + 1 => .hex k) rest)
    else none

/-- Scan a string literal after its opening quote: the bytes between the
quotes and the input after the closing quote. -/
def scanString (s : Bytes) : Option (Bytes × Bytes) := scanStringFrom .char s

/-- Drop leading digits. -/
def skipDigits : Bytes → Bytes
  | [] => []
  | c :: rest => if isDigit c then skipDigits rest else c :: rest

/-- One or more digits, then the rest. -/
def scanDigits1 : Bytes → Option Bytes
  | [] => none
  | c :: rest => if isDigit c then some (skipDigits rest) else none

/-- The optional exponent of a number. -/
def scanExp : Bytes → Option Bytes
  | [] => some []
  | c :: rest =>
    if c = 0x65 || c = 0x45 then
      match rest with
      | [] => none
      | s :: rest1 => if s = 0x2B || s = 0x2D then scanDigits1 rest1 else scanDigits1 (s :: rest1)
    else some (c :: rest)

/-- The optional fraction of a number, then the optional exponent. -/
def scanFrac : Bytes → Option Bytes
  | [] => some []
  | c :: rest =>
    if c = 0x2E then
      match scanDigits1 rest with
      | some r => scanExp r
      | none => none
    else scanExp (c :: rest)

/-- The integer part of a number after the optional minus sign. -/
def scanInt : Bytes → Option Bytes
  | [] => none
  | c :: rest =>
    if c = 0x30 then scanFrac rest
    else if 0x31 ≤ c && c ≤ 0x39 then scanFrac (skipDigits rest)
    else none

/-- Scan a number: the input after it. -/
def scanNumber : Bytes → Option Bytes
  | [] => none
  | c :: rest => if c = 0x2D then scanInt rest else scanInt (c :: rest)

/-- Drop the literal `lit` from the front of the input. -/
def scanLiteral : Bytes → Bytes → Option Bytes
  | [], input => some input
  | _ :: _, [] => none
  | l :: ls, c :: rest => if l = c then scanLiteral ls rest else none

/-- The deepest nesting of arrays and objects the scanner accepts. -/
def maxNestingDepth : Nat := 10000

mutual

/-- Scan one JSON value at the head of the input (no leading white space):
the input after it.  `depth` counts the enclosing arrays and objects. -/
def scanValue : Nat → Nat → Bytes → Option Bytes
  | 0, _, _ => none
  | _ + 1, _, [] => none
  | fuel + 1, depth, c :: rest =>
    if c = 0x7B then
      if depth ≥ maxNestingDepth then none
      else
        match skipSpace rest with
        | [] => none
        | d :: rest1 =>
          if d = 0x7D then some rest1
          else
            match scanMembers fuel (depth + 1) (d :: rest1) with
            | some (_, r) => some r
            | none => none
    else if c = 0x5B then
      if depth ≥ maxNestingDepth then none
      else
        match skipSpace rest with
        | [] => none
        | d :: rest1 =>
          if d = 0x5D then some rest1
          else scanElements fuel (depth + 1) (d :: rest1)
    else if c = 0x22 then
      match scanString rest with
      | some (_, r) => some r
      | none => none
    else if c = 0x74 then scanLiteral [0x72, 0x75, 0x65] rest
    else if c = 0x66 then scanLiteral [0x61, 0x6C, 0x73, 0x65] rest
    else if c = 0x6E then scanLiteral [0x75, 0x6C, 0x6C] rest
    else scanNumber (c :: rest)

/-- Scan the members of an object from the opening quote of a key up to and
including the closing brace: the members in input order, each as the bytes
between the quotes of its key and the bytes of its value, and the input
after the brace. -/
def scanMembers : Nat → Nat → Bytes → Option (List (Bytes × Bytes) × Bytes)
  | 0, _, _ => none
  | _ + 1, _, [] => none
  | fuel + 1, depth, c :: rest =>
    if c = 0x22 then
      match scanString rest with
      | none => none
      | some (key, r1) =>
        match skipSpace r1 with
        | [] => none
        | colon :: r2 =>
          if colon = 0x3A then
            let r3 := skipSpace r2
            match scanValue fuel depth r3 with
            | none => none
            | some r4 =>
              let raw := r3.take (r3.length - r4.length)
              match skipSpace r4 with
              | [] => none
              | sep :: r5 =>
                if sep = 0x7D then some ([(key, raw)], r5)
                else if sep = 0x2C then
                  match scanMembers fuel depth (skipSpace r5) with
                  | some (ms, r) => some ((key, raw) :: ms, r)
                  | none => none
                else none
          else none
    else none

/-- Scan the elements of an array from the first byte of an element up to
and including the closing bracket: the input after the bracket. -/
def scanElements : Nat → Nat → Bytes → Option Bytes
  | 0, _, _ => none
  | fuel + 1, depth, input =>
    match scanValue fuel depth input with
    | none => none
    | some r1 =>
      match skipSpace r1 with
      | [] => none
      | sep :: r2 =>
        if sep = 0x5D then some r2
        else if sep = 0x2C then scanElements fuel depth (skipSpace r2)
        else none

end

/-- Enough fuel to scan `data`: the scanner makes at most two nested calls
for every byte it consumes (see `scan_fuel_independent`). -/
def fuelFor (data : Bytes) : Nat := 2 * data.length + 2

/-- Function `checkValid`: the input is one JSON value surrounded by optional
white space. -/
def checkValid (data : Bytes) : Bool :=
  match scanValue (fuelFor data) 0 (skipSpace data) with
  | some r => (skipSpace r).isEmpty
  | none => false

/-- The replacement character U+FFFD in UTF-8. -/
def replacement : Bytes := [0xEF, 0xBF, 0xBD]

/-- Function `utf8.EncodeRune`: surrogates and values above U+10FFFF are
written as the replacement character. -/
def encodeRune (r : Nat) : Bytes :=
  if r < 0x80 then [UInt8.ofNat r]
  else if r < 0x800 then [UInt8.ofNat (0xC0 + r / 64), UInt8.ofNat (0x80 + r % 64)]
  else if 0xD800 ≤ r && r < 0xE000 then replacement
  else if r < 0x10000 then
    [UInt8.ofNat (0xE0 + r / 4096), UInt8.ofNat (0x80 + r / 64 % 64), UInt8.ofNat (0x80 + r % 64)]
  else if r < 0x110000 then
    [UInt8.ofNat (0xF0 + r / 262144), UInt8.ofNat (0x80 + r / 4096 % 64),
      UInt8.ofNat (0x80 + r / 64 % 64), UInt8.ofNat (0x80 + r % 64)]
  else replacement

/-- A continuation byte of UTF-8. -/
def isCont (c : UInt8) : Bool := 0x80 ≤ c && c ≤ 0xBF

/-- The number of continuation bytes of the well-formed UTF-8 sequence that
starts with the non-ASCII byte `c` followed by `rest`; `none` when the bytes
are not a well-formed sequence (over-long forms, surrogates and values above
U+10FFFF included), which `utf8.DecodeRune` reports as a one-byte error. -/
def runeTail (c : UInt8) (rest : Bytes) : Option Nat :=
  if 0xC2 ≤ c && c ≤ 0xDF then
    match rest with
    | b1 :: _ => if isCont b1 then some 1 else none
    | _ => none
  else if 0xE0 ≤ c && c ≤ 0xEF then
    match rest with
    | b1 :: b2 :: _ =>
      let lo : UInt8 := if c = 0xE0 then 0xA0 else 0x80
      let hi : UInt8 := if c = 0xED then 0x9F else 0xBF
      if lo ≤ b1 && b1 ≤ hi && isCont b2 then some 2 else none
    | _ => none
  else if 0xF0 ≤ c && c ≤ 0xF4 then
    match rest with
    | b1 :: b2 :: b3 :: _ =>
      let lo : UInt8 := if c = 0xF0 then 0x90 else 0x80
      let hi : UInt8 := if c = 0xF4 then 0x8F else 0xBF
      if lo ≤ b1 && b1 ≤ hi && isCont b2 && isCont b3 then some 3 else none
    | _ => none
  else none

/-- The rune of a `\u` escape with value `hi`, given the input after it:
a high surrogate followed by a `\u` escape of a low surrogate is the pair's
code point and consumes that escape; any other surrogate is U+FFFD.  The
result is the rune and whether the following escape is consumed. -/
def escapedRune (hi : Nat) (rest : Bytes) : Nat × Bool :=
  if 0xD800 ≤ hi && hi < 0xE000 then
    match rest with
    | b :: u :: h1 :: h2 :: h3 :: h4 :: _ =>
      if b = 0x5C && u = 0x75 then
        match hex4 h1 h2 h3 h4 with
        | some lo =>
          if hi < 0xDC00 && 0xDC00 ≤ lo && lo < 0xE000 then
            ((hi - 0xD800) * 1024 + (lo - 0xDC00) + 0x10000, true)
          else (0xFFFD, false)
        | none => (0xFFFD, false)
      else (0xFFFD, false)
    | _ => (0xFFFD, false)
  else (hi, false)

/-- Function `unquote` on the bytes between the quotes of a string literal
the scanner has accepted: escapes are replaced by the characters they stand
for and bytes that are not well-formed UTF-8 by U+FFFD.  `copy` is the number
of continuation bytes of the current rune still to be copied and `skip` the
number of bytes of an escape already decoded still to be passed over. -/
def unquoteAux : Nat → Nat → Bytes → Bytes
  | _, _, [] => []
  | _, skip + 1, _ :: rest => unquoteAux 0 skip rest
  | copy + 1, 0, c :: rest => c :: unquoteAux copy 0 rest
  | 0, 0, c :: rest =>
    if c = 0x5C then
      match rest with
      | [] => []
      | e :: rest1 =>
        if e = 0x75 then
          match rest1 with
          | h1 :: h2 :: h3 :: h4 :: rest2 =>
            match hex4 h1 h2 h3 h4 with
            | some hi =>
              let r := escapedRune hi rest2
              encodeRune r.1 ++ unquoteAux 0 (if r.2 then 11 else 5) (e :: rest1)
            | none => []
          | _ => []
        else
          let d : UInt8 :=
            if e = 0x62 then 0x08 else if e = 0x66 then 0x0C else if e = 0x6E then 0x0A
            else if e = 0x72 then 0x0D else if e = 0x74 then 0x09 else e
          d :: unquoteAux 0 1 (e :: rest1)
    else if c < 0x80 then c :: unquoteAux 0 0 rest
    else
      match runeTail c rest with
      | some n => c :: unquoteAux n 0 rest
      | none => replacement ++ unquoteAux 0 0 rest

/-- The Go string denoted by the bytes between the quotes of a literal. -/
def unquote (body : Bytes) : Bytes := unquoteAux 0 0 body

/-- Upper-case form of an ASCII letter; other bytes are unchanged. -/
def upper (c : UInt8) : UInt8 := if 0x61 ≤ c && c ≤ 0x7A then c - 0x20 else c

/-- Whether the object key `key` selects the struct field with the ASCII
name `name`: equality under Unicode simple case folding.  The only non-ASCII
characters that fold to an ASCII letter are U+017F (to s) and U+212A (to k). -/
def foldEq : Bytes → Bytes → Bool
  | [], [] => true
  | [], _ :: _ => false
  | _ :: _, [] => false
  | n :: ns, k :: ks =>
    if k < 0x80 then upper k = upper n && foldEq ns ks
    else if k = 0xC5 then
      match ks with
      | b :: ks1 => b = 0xBF && upper n = 0x53 && foldEq ns ks1
      | [] => false
    else if k = 0xE2 then
      match ks with
      | b1 :: b2 :: ks2 => b1 = 0x84 && b2 = 0xAA && upper n = 0x4B && foldEq ns ks2
      | _ => false
    else false

/-- The kind of a JSON value, read off its first byte. -/
inductive Kind where
  | object | array | string | number | bool | null
deriving DecidableEq, Repr

/-- The kind of the value that starts with byte `c`. -/
def kindOf (c : UInt8) : Kind :=
  if c = 0x7B then .object else if c = 0x5B then .array else if c = 0x22 then .string
  else if c = 0x74 || c = 0x66 then .bool else if c = 0x6E then .null else .number

/-- The error of `json.Unmarshal`: the input is not JSON, or a JSON value of
kind `value` does not fit the Go type it is decoded into. -/
inductive Error where
  | syntaxError
  | typeError (value : Kind)
deriving DecidableEq, Repr

/-- The decoder state for a struct with a string field and a map field: the
two fields and the first type error met (decoding goes on after it). -/
structure Partial where
  text : Bytes
  entries : GoMap Bytes
  saved : Option Error
deriving DecidableEq, Repr

/-- Record a type error unless one is recorded already. -/
def Partial.saveError (p : Partial) (e : Error) : Partial :=
  match p.saved with
  | some _ => p
  | none => { p with saved := some e }

/-- Store the members of a JSON object into a map of raw messages: each
value is stored as written, a repeated key replaces the earlier binding. -/
def storeEntries : GoMap Bytes → List (Bytes × Bytes) → GoMap Bytes
  | m, [] => m
  | m, (key, raw) :: rest => storeEntries (GoMap.set m (unquote key) raw) rest

/-- Decode the value `raw` into the string field. -/
def decodeString (p : Partial) (raw : Bytes) : Partial :=
  match raw with
  | [] => p.saveError .syntaxError
  | c :: rest =>
    match kindOf c with
    | .string =>
      match scanString rest with
      | some (body, _) => { p with text := unquote body }
      | none => p.saveError .syntaxError
    | .null => p
    | k => p.saveError (.typeError k)

/-- Decode the value `raw` into the map field. -/
def decodeMap (p : Partial) (raw : Bytes) : Partial :=
  match raw with
  | [] => p.saveError .syntaxError
  | c :: rest =>
    match kindOf c with
    | .object =>
      match skipSpace rest with
      | [] => p.saveError .syntaxError
      | d :: rest1 =>
        if d = 0x7D then p
        else
          match scanMembers (fuelFor raw) 2 (d :: rest1) with
          | some (ms, _) => { p with entries := storeEntries p.entries ms }
          | none => p.saveError .syntaxError
    | .null => { p with entries := [] }
    | k => p.saveError (.typeError k)

/-- Decode the members of the top-level object, in input order, into the
struct whose string field has the JSON name `nameS` and whose map field has
the JSON name `nameM`.  Members that select no field are skipped. -/
def decodeMembers (nameS nameM : Bytes) : Partial → List (Bytes × Bytes) → Partial
  | p, [] => p
  | p, (key, raw) :: rest =>
    let k := unquote key
    if foldEq nameS k then decodeMembers nameS nameM (decodeString p raw) rest
    else if foldEq nameM k then decodeMembers nameS nameM (decodeMap p raw) rest
    else decodeMembers nameS nameM p rest

/-- The outcome of `json.Unmarshal(data, &v)`: the error returned, or nil
and the value stored in `v`. -/
inductive Decoded (α : Type) where
  | error (e : Error)
  | ok (v : α)
deriving DecidableEq, Repr

/-- Function `json.Unmarshal(data, &v)` for `v` a zero struct with a string
field named `nameS` and a `map[string]json.RawMessage` field named `nameM`
(the names of the `json` tags). -/
def Unmarshal (nameS nameM : Bytes) (data : Bytes) : Decoded (Bytes × GoMap Bytes) :=
  if checkValid data then
    match skipSpace data with
    | [] => .error .syntaxError
    | c :: rest =>
      match kindOf c with
      | .object =>
        match skipSpace rest with
        | [] => .error .syntaxError
        | d :: rest1 =>
          if d = 0x7D then .ok ([], [])
          else
            match scanMembers (fuelFor data) 1 (d :: rest1) with
            | none => .error .syntaxError
            | some (ms, _) =>
              let p := decodeMembers nameS nameM ⟨[], [], none⟩ ms
              match p.saved with
              | some e => .error e
              | none => .ok (p.text, p.entries)
      | .null => .ok ([], [])
      | k => .error (.typeError k)
  else .error .syntaxError

end json

/-! ## net/http -/

/-- The state of an `http.ResponseWriter`: the status code once the header
is written, and the body written so far. -/
structure ResponseWriter where
  status : Option Nat
  body : Bytes
deriving DecidableEq, Repr

/-- The writer a handler is called with. -/
def ResponseWriter.fresh : ResponseWriter := ⟨none, []⟩

/-- Method `WriteHeader`: the first call fixes the status code. -/
def ResponseWriter.WriteHeader (w : ResponseWriter) (code : Nat) : ResponseWriter :=
  match w.status with
  | some _ => w
  | none => ⟨some code, w.body⟩

/-- Method `Write`: writes the header with status 200 when none is written
yet, then appends to the body. -/
def ResponseWriter.Write (w : ResponseWriter) (data : Bytes) : ResponseWriter :=
  let w1 := w.WriteHeader 200
  ⟨w1.status, w1.body ++ data⟩

/-- The status code of the response sent when the handler returns. -/
def ResponseWriter.StatusCode (w : ResponseWriter) : Nat := w.status.getD 200

/-- The pair `(body, err)` returned by `ioutil.ReadAll(r.Body)`. -/
inductive ReadResult where
  | error (err : Bytes)
  | ok (body : Bytes)
deriving DecidableEq, Repr

/-- The type `http.Request`, with what reading its body gives. -/
structure Request where
  Body : ReadResult
deriving DecidableEq, Repr

/-- What a write-proxy handler does besides writing the response: log
calls, prints to standard output and sends on `produceChan`, in program
order.  A send blocks until the channel takes the message; the embedding
records the sends of a handler that is never blocked for good. -/
inductive ProxyEffect (M : Type) where
  | log (level : Level) (text : String)
  | print (text : String)
  | send (m : M)
deriving DecidableEq, Repr

/-- The messages sent on `produceChan`, in order. -/
def sent {M : Type} : List (ProxyEffect M) → List M
  | [] => []
  | .send m :: rest => m :: sent rest
  | _ :: rest => sent rest

/-! ## main.go: the write proxy -/

/-- Type `WriteRequest` of main.go (181-184). -/
structure WriteRequest where
  Object : Bytes
  Data : GoMap Bytes
deriving DecidableEq, Repr

/-- The call `json.Unmarshal(body, &write)` of main.go: the JSON names of
the fields are `object` and `data`. -/
def WriteRequest.Unmarshal (body : Bytes) : json.Decoded WriteRequest :=
  match json.Unmarshal (str "object") (str "data") body with
  | .error e => .error e
  | .ok (t, m) => .ok ⟨t, m⟩

/-- Method `WriteProxy.ServeHTTP` of main.go (155-179).  `unmarshal` is
`json.Unmarshal` into a `WriteRequest` and `range` the order in which the
`range` statement visits `write.Data`. -/
def ServeHTTP (unmarshal : Bytes → json.Decoded WriteRequest) (range : RangeOrder Bytes)
    (w : ResponseWriter) (r : Request) : ResponseWriter × List (ProxyEffect kafka.Message) :=
  match r.Body with
  | .error _ => (w.WriteHeader 400, [.log .error "read body failed"])
  | .ok body =>
    match unmarshal body with
    | .error _ => (w.WriteHeader 400, [.log .error "decode body failed %v\n"])
    | .ok write =>
      let topic := APP_NAME ++ str "_" ++ write.Object
      let loop := (range.order write.Data).flatMap fun kv =>
        [ProxyEffect.print "Writing",
         ProxyEffect.send
           { TopicPartition :=
               { Topic := topic, Partition := kafka.PartitionAny, Offset := 0, Error := none },
             Key := kv.1, Value := kv.2 }]
      (w.Write (str "ok"), loop)

/-! ## pkg/write_proxy.go -/

namespace pkg

/-- Modelled from the spec: the type `Message` of package `spacer`, whose
declaration is not among the sources.  The spec gives it a topic, a key, a
value and an optional partition; `ServeHTTP` sets the first three. -/
structure Message where
  Topic : Bytes
  Key : Bytes
  Value : Bytes
  Partition : Option Int
deriving DecidableEq, Repr

/-- Type `WriteRequest` of pkg/write_proxy.go (45-48). -/
structure WriteRequest where
  Topic : Bytes
  Entries : GoMap Bytes
deriving DecidableEq, Repr

/-- The call `json.Unmarshal(body, &write)` of pkg/write_proxy.go: the JSON
names of the fields are `topic` and `entries`. -/
def WriteRequest.Unmarshal (body : Bytes) : json.Decoded WriteRequest :=
  match json.Unmarshal (str "topic") (str "entries") body with
  | .error e => .error e
  | .ok (t, m) => .ok ⟨t, m⟩

/-- Method `WriteProxy.ServeHTTP` of pkg/write_proxy.go (20-43).  `appName`
is the value of `p.app.GetString("appName")` (type `Application` is not among
the sources), `unmarshal` is `json.Unmarshal` into a `WriteRequest` and
`range` the order in which the `range` statement visits `write.Entries`. -/
def ServeHTTP (appName : Bytes) (unmarshal : Bytes → json.Decoded WriteRequest)
    (range : RangeOrder Bytes) (w : ResponseWriter) (r : Request) :
    ResponseWriter × List (ProxyEffect Message) :=
  match r.Body with
  | .error _ => (w.WriteHeader 400, [.log .error "read body failed"])
  | .ok body =>
    match unmarshal body with
    | .error _ => (w.WriteHeader 400, [.log .error "decode body failed %v"])
    | .ok write =>
      let topic := appName ++ str "_" ++ write.Topic
      let loop := (range.order write.Entries).map fun kv =>
        ProxyEffect.send { Topic := topic, Key := kv.1, Value := kv.2, Partition := none }
      (w.Write (str "ok"), loop)

end pkg

/-- The body of property P5 of the specification. -/
def specBody : Bytes :=
  str "\x7b\"topic\":\"stat\",\"entries\":\x7b\"a\":1,\"b\":2\x7d\x7d"

/-- The same batch written in the schema of main.go. -/
def mainBody : Bytes :=
  str "\x7b\"object\":\"stat\",\"data\":\x7b\"a\":1,\"b\":2\x7d\x7d"


/-- The message `ServeHTTP` of main.go builds for one entry. -/
def mainMessage (object : Bytes) (kv : Bytes × Bytes) : kafka.Message :=
  ⟨⟨APP_NAME ++ str "_" ++ object, kafka.PartitionAny, 0, none⟩, kv.2, kv.1⟩

/-! ## Vocabulary of the ordering property -/

/-- Whether an effect is a POST or a commit. -/
def isDispatch : Effect → Bool
  | .post _ _ _ _ => true
  | .commit _ _ => true
  | _ => false

/-- One handled message as the effects show it: the message, the URL it was
posted to, the reply of the POST, and the result of `CommitMessage` when the
message was committed (`none` when it was not). -/
structure Dispatch where
  m : kafka.Message
  url : Bytes
  reply : PostResult
  commit : Option (Option Bytes)

/-- The POST and commit effects of one handled message: the POST of its
value, then the commit when there is one. -/
def Dispatch.effects (d : Dispatch) : List Effect :=
  .post d.url (str "application/json") d.m.Value d.reply ::
    match d.commit with
    | none => []
    | some cerr => [.commit d.m cerr]

/-! ## Theorems: the JSON scanner never runs out of fuel -/

namespace json
theorem skipSpace_length_le (s : Bytes) : (skipSpace s).length ≤ s.length := by
  induction s with
  | nil => simp [skipSpace]
  | cons c rest ih =>
    unfold skipSpace
    split
    · exact Nat.le_succ_of_le ih
    · exact Nat.le_refl _

theorem keep_eq_some {c : UInt8} {o : Option (Bytes × Bytes)} {body r : Bytes}
    (h : keep c o = some (body, r)) : ∃ body1, o = some (body1, r) := by
  cases o with
  | none => simp [keep] at h
  | some p =>
    obtain ⟨b1, r1⟩ := p
    simp only [keep, Option.some.injEq, Prod.mk.injEq] at h
    exact ⟨b1, by rw [h.2]⟩

theorem scanStringFrom_length_le (s : Bytes) :
    ∀ (st : InString) (body r : Bytes), scanStringFrom st s = some (body, r) →
      r.length ≤ s.length := by
  induction s with
  | nil => intro st body r h; cases st <;> simp [scanStringFrom] at h
  | cons c rest ih =>
    intro st body r h
    cases st with
    | char =>
      simp only [scanStringFrom] at h
      split at h
      · simp only [Option.some.injEq, Prod.mk.injEq] at h
        rw [← h.2]; exact Nat.le_succ _
      · split at h
        · obtain ⟨b1, h1⟩ := keep_eq_some h
          exact Nat.le_succ_of_le (ih _ _ _ h1)
        · split at h
          · simp at h
          · obtain ⟨b1, h1⟩ := keep_eq_some h
            exact Nat.le_succ_of_le (ih _ _ _ h1)
    | esc =>
      simp only [scanStringFrom] at h
      split at h
      · obtain ⟨b1, h1⟩ := keep_eq_some h
        exact Nat.le_succ_of_le (ih _ _ _ h1)
      · split at h
        · obtain ⟨b1, h1⟩ := keep_eq_some h
          exact Nat.le_succ_of_le (ih _ _ _ h1)
        · simp at h
    | hex n =>
      simp only [scanStringFrom] at h
      split at h
      · obtain ⟨b1, h1⟩ := keep_eq_some h
        exact Nat.le_succ_of_le (ih _ _ _ h1)
      · simp at h

theorem scanString_length_le (s body r : Bytes) (h : scanString s = some (body, r)) :
    r.length ≤ s.length :=
  scanStringFrom_length_le s .char body r h

theorem skipDigits_length_le (s : Bytes) : (skipDigits s).length ≤ s.length := by
  induction s with
  | nil => simp [skipDigits]
  | cons c rest ih =>
    unfold skipDigits
    split
    · exact Nat.le_succ_of_le ih
    · exact Nat.le_refl _

theorem scanDigits1_length_le (s r : Bytes) (h : scanDigits1 s = some r) :
    r.length ≤ s.length := by
  cases s with
  | nil => simp [scanDigits1] at h
  | cons c rest =>
    simp only [scanDigits1] at h
    split at h
    · simp only [Option.some.injEq] at h
      rw [← h]
      exact Nat.le_succ_of_le (skipDigits_length_le rest)
    · simp at h

theorem scanExp_length_le (s r : Bytes) (h : scanExp s = some r) : r.length ≤ s.length := by
  cases s with
  | nil => simp [scanExp] at h; rw [← h]
  | cons c rest =>
    simp only [scanExp] at h
    split at h
    · split at h
      · simp at h
      · rename_i sg rest1
        split at h
        · have := scanDigits1_length_le _ _ h
          simp; omega
        · have := scanDigits1_length_le _ _ h
          simp at this ⊢; omega
    · simp only [Option.some.injEq] at h
      rw [← h]

theorem scanFrac_length_le (s r : Bytes) (h : scanFrac s = some r) : r.length ≤ s.length := by
  cases s with
  | nil => simp [scanFrac] at h; rw [← h]
  | cons c rest =>
    simp only [scanFrac] at h
    split at h
    · split at h
      · rename_i r1 hd
        have h1 := scanDigits1_length_le _ _ hd
        have h2 := scanExp_length_le _ _ h
        simp; omega
      · simp at h
    · exact scanExp_length_le _ _ h

theorem scanInt_length_le (s r : Bytes) (h : scanInt s = some r) : r.length ≤ s.length := by
  cases s with
  | nil => simp [scanInt] at h
  | cons c rest =>
    simp only [scanInt] at h
    split at h
    · have := scanFrac_length_le _ _ h
      simp; omega
    · split at h
      · have h1 := scanFrac_length_le _ _ h
        have h2 := skipDigits_length_le rest
        simp; omega
      · simp at h

theorem scanNumber_length_le (s r : Bytes) (h : scanNumber s = some r) :
    r.length ≤ s.length := by
  cases s with
  | nil => simp [scanNumber] at h
  | cons c rest =>
    simp only [scanNumber] at h
    split at h
    · have := scanInt_length_le _ _ h
      simp; omega
    · exact scanInt_length_le _ _ h

theorem scanLiteral_length_le (l : Bytes) :
    ∀ (s r : Bytes), scanLiteral l s = some r → r.length ≤ s.length := by
  induction l with
  | nil => intro s r h; simp [scanLiteral] at h; rw [← h]
  | cons x xs ih =>
    intro s r h
    cases s with
    | nil => simp [scanLiteral] at h
    | cons c rest =>
      simp only [scanLiteral] at h
      split at h
      · have := ih rest r h
        simp; omega
      · simp at h

theorem skipSpace_cons_length {s : Bytes} {d : UInt8} {t : Bytes}
    (h : skipSpace s = d :: t) : t.length + 1 ≤ s.length := by
  have := skipSpace_length_le s
  rw [h] at this
  simpa using this

/-- Scanning consumes input: what is left is never longer than the input. -/
theorem scan_length_le (fuel : Nat) :
    (∀ depth input r, scanValue fuel depth input = some r → r.length ≤ input.length) ∧
    (∀ depth input ms r, scanMembers fuel depth input = some (ms, r) →
      r.length ≤ input.length) ∧
    (∀ depth input r, scanElements fuel depth input = some r →
      r.length ≤ input.length) := by
  induction fuel with
  | zero =>
    refine ⟨?_, ?_, ?_⟩
    · intro depth input r h; simp [scanValue] at h
    · intro depth input ms r h; simp [scanMembers] at h
    · intro depth input r h; simp [scanElements] at h
  | succ fuel ih =>
    obtain ⟨ihV, ihM, ihE⟩ := ih
    refine ⟨?_, ?_, ?_⟩
    · intro depth input r h
      cases input with
      | nil => simp [scanValue] at h
      | cons c rest =>
        rw [scanValue] at h
        simp only [List.length_cons]
        split at h
        · split at h
          · simp at h
          · split at h
            · simp at h
            · rename_i d rest1 hsk
              have hl := skipSpace_cons_length hsk
              split at h
              · simp only [Option.some.injEq] at h
                rw [← h]; omega
              · split at h
                · rename_i ms r1 hm
                  simp only [Option.some.injEq] at h
                  have := ihM _ _ _ _ hm
                  rw [← h]; simp only [List.length_cons] at this; omega
                · simp at h
        · split at h
          · split at h
            · simp at h
            · split at h
              · simp at h
              · rename_i d rest1 hsk
                have hl := skipSpace_cons_length hsk
                split at h
                · simp only [Option.some.injEq] at h
                  rw [← h]; omega
                · have := ihE _ _ _ h
                  simp only [List.length_cons] at this; omega
          · split at h
            · split at h
              · rename_i body r1 hs
                simp only [Option.some.injEq] at h
                have := scanString_length_le _ _ _ hs
                rw [← h]; omega
              · simp at h
            · split at h
              · have := scanLiteral_length_le _ _ _ h; omega
              · split at h
                · have := scanLiteral_length_le _ _ _ h; omega
                · split at h
                  · have := scanLiteral_length_le _ _ _ h; omega
                  · have := scanNumber_length_le _ _ h
                    simpa using this
    · intro depth input ms r h
      cases input with
      | nil => simp [scanMembers] at h
      | cons c rest =>
        rw [scanMembers] at h
        simp only [List.length_cons]
        split at h
        · split at h
          · simp at h
          · rename_i key r1 hs
            have h1 := scanString_length_le _ _ _ hs
            split at h
            · simp at h
            · rename_i colon r2 hsk
              have h2 := skipSpace_cons_length hsk
              split at h
              · simp only at h
                split at h
                · simp at h
                · rename_i r4 hv
                  have h3 := ihV _ _ _ hv
                  have h3' := skipSpace_length_le r2
                  split at h
                  · simp at h
                  · rename_i sep r5 hsk2
                    have h4 := skipSpace_cons_length hsk2
                    split at h
                    · simp only [Option.some.injEq, Prod.mk.injEq] at h
                      rw [← h.2]; omega
                    · split at h
                      · split at h
                        · rename_i ms1 r6 hm
                          simp only [Option.some.injEq, Prod.mk.injEq] at h
                          have h5 := ihM _ _ _ _ hm
                          have h6 := skipSpace_length_le r5
                          rw [← h.2]; omega
                        · simp at h
                      · simp at h
              · simp at h
        · simp at h
    · intro depth input r h
      rw [scanElements] at h
      split at h
      · simp at h
      · rename_i r1 hv
        have h1 := ihV _ _ _ hv
        split at h
        · simp at h
        · rename_i sep r2 hsk
          have h2 := skipSpace_cons_length hsk
          split at h
          · simp only [Option.some.injEq] at h
            rw [← h]; omega
          · split at h
            · have h3 := ihE _ _ _ h
              have h4 := skipSpace_length_le r2
              omega
            · simp at h

/-- Fuel beyond twice the length of the input (plus one for the two list
scanners) does not change the result of the scanner. -/
theorem scan_fuel_step (fuel : Nat) :
    (∀ depth input k, 2 * input.length ≤ fuel →
      scanValue (fuel + k) depth input = scanValue fuel depth input) ∧
    (∀ depth input k, 2 * input.length + 1 ≤ fuel →
      scanMembers (fuel + k) depth input = scanMembers fuel depth input) ∧
    (∀ depth input k, 2 * input.length + 1 ≤ fuel →
      scanElements (fuel + k) depth input = scanElements fuel depth input) := by
  induction fuel with
  | zero =>
    refine ⟨?_, ?_, ?_⟩
    · intro depth input k h
      have hnil : input = [] := List.eq_nil_of_length_eq_zero (by omega)
      subst hnil
      cases k <;> simp [scanValue]
    · intro depth input k h; omega
    · intro depth input k h; omega
  | succ fuel ih =>
    obtain ⟨ihV, ihM, ihE⟩ := ih
    refine ⟨?_, ?_, ?_⟩
    · intro depth input k hlen
      rw [Nat.add_right_comm]
      cases input with
      | nil => simp [scanValue]
      | cons c rest =>
        simp only [List.length_cons] at hlen
        rw [scanValue, scanValue]
        by_cases h1 : c = 0x7B
        · simp only [h1, if_true]
          by_cases h2 : depth ≥ maxNestingDepth
          · simp only [h2, if_true]
          · simp only [h2, if_false]
            cases hsk : skipSpace rest with
            | nil => rfl
            | cons d rest1 =>
              have hl := skipSpace_cons_length hsk
              simp only []
              rw [ihM (depth + 1) (d :: rest1) k (by simp only [List.length_cons]; omega)]
        · simp only [h1, if_false]
          by_cases h3 : c = 0x5B
          · simp only [h3, if_true]
            by_cases h2 : depth ≥ maxNestingDepth
            · simp only [h2, if_true]
            · simp only [h2, if_false]
              cases hsk : skipSpace rest with
              | nil => rfl
              | cons d rest1 =>
                have hl := skipSpace_cons_length hsk
                simp only []
                rw [ihE (depth + 1) (d :: rest1) k (by simp only [List.length_cons]; omega)]
          · simp only [h3, if_false]
    · intro depth input k hlen
      rw [Nat.add_right_comm]
      cases input with
      | nil => simp [scanMembers]
      | cons c rest =>
        simp only [List.length_cons] at hlen
        rw [scanMembers, scanMembers]
        by_cases h1 : c = 0x22
        · simp only [h1, if_true]
          cases hs : scanString rest with
          | none => rfl
          | some p =>
            obtain ⟨key, r1⟩ := p
            have l1 := scanString_length_le _ _ _ hs
            simp only []
            cases hsk : skipSpace r1 with
            | nil => rfl
            | cons colon r2 =>
              have l2 := skipSpace_cons_length hsk
              have l3 := skipSpace_length_le r2
              simp only []
              by_cases h2 : colon = 0x3A
              · simp only [h2, if_true]
                rw [ihV depth (skipSpace r2) k (by omega)]
                cases hv : scanValue fuel depth (skipSpace r2) with
                | none => rfl
                | some r4 =>
                  have l4 := (scan_length_le fuel).1 _ _ _ hv
                  simp only []
                  cases hsk2 : skipSpace r4 with
                  | nil => rfl
                  | cons sep r5 =>
                    have l5 := skipSpace_cons_length hsk2
                    have l6 := skipSpace_length_le r5
                    simp only []
                    rw [ihM depth (skipSpace r5) k (by omega)]
              · simp only [h2, if_false]
        · simp only [h1, if_false]
    · intro depth input k hlen
      rw [Nat.add_right_comm, scanElements, scanElements]
      rw [ihV depth input k (by omega)]
      cases hv : scanValue fuel depth input with
      | none => rfl
      | some r1 =>
        have l1 := (scan_length_le fuel).1 _ _ _ hv
        simp only []
        cases hsk : skipSpace r1 with
        | nil => rfl
        | cons sep r2 =>
          have l2 := skipSpace_cons_length hsk
          have l3 := skipSpace_length_le r2
          simp only []
          rw [ihE depth (skipSpace r2) k (by omega)]

/-- The fuel `fuelFor data` is enough for every input no longer than `data`:
more fuel gives the same result, so the scanner never fails for lack of
fuel. -/
theorem scan_fuel_independent (data input : Bytes) (depth fuel : Nat)
    (hlen : input.length ≤ data.length) (hfuel : fuelFor data ≤ fuel) :
    scanValue fuel depth input = scanValue (fuelFor data) depth input ∧
    scanMembers fuel depth input = scanMembers (fuelFor data) depth input ∧
    scanElements fuel depth input = scanElements (fuelFor data) depth input := by
  obtain ⟨k, rfl⟩ : ∃ k, fuel = fuelFor data + k := ⟨fuel - fuelFor data, by omega⟩
  obtain ⟨hV, hM, hE⟩ := scan_fuel_step (fuelFor data)
  unfold fuelFor at *
  exact ⟨hV depth input k (by omega), hM depth input k (by omega), hE depth input k (by omega)⟩

end json

/-- The model on the body of property P5, for either schema: the keys of the
other schema select no field and are skipped. -/
theorem Unmarshal_specBody :
    json.Unmarshal (str "topic") (str "entries") specBody =
      .ok (str "stat", [(str "a", str "1"), (str "b", str "2")]) ∧
    json.Unmarshal (str "object") (str "data") specBody = .ok ([], []) := by
  decide

/-- The model on keys in another case, escapes, a repeated key, a null and
values that are not numbers: keys match without regard to case, escapes are
decoded, the later binding of a key replaces the earlier one, a null leaves
the string field as it is, and raw values are kept as written. -/
theorem Unmarshal_folds_and_unquotes :
    json.Unmarshal (str "topic") (str "entries")
      (str "\x7b\"Topic\":\"s\\u00e9\\n\",\"ENTRIES\":\x7b\"a\": [1, 2] ,\"a\":null\x7d, \"topic\": null\x7d") =
      .ok (str "sé\n", [(str "a", str "null")]) := by
  decide

/-- The model on input that is not JSON and on JSON of the wrong type. -/
theorem Unmarshal_errors :
    json.Unmarshal (str "topic") (str "entries") (str "\x7b\"topic\":\"stat\",") =
      .error .syntaxError ∧
    json.Unmarshal (str "topic") (str "entries") (str "\x7b\"topic\":1\x7d") =
      .error (.typeError .number) ∧
    json.Unmarshal (str "topic") (str "entries") (str "\x7b\"entries\":[1]\x7d") =
      .error (.typeError .array) ∧
    json.Unmarshal (str "topic") (str "entries") (str "[]") = .error (.typeError .array) ∧
    json.Unmarshal (str "topic") (str "entries") (str " null ") = .ok ([], []) :=
  ⟨by decide, by decide, by decide, by decide, by decide⟩

/-! ## Theorems: the consumer loop and `invoke` -/

section Lemmas

theorem commits_append (a b : List Effect) : commits (a ++ b) = commits a ++ commits b := by
  induction a with
  | nil => rfl
  | cons x xs ih => cases x <;> simp [commits, ih]

theorem posts_append (a b : List Effect) : posts (a ++ b) = posts a ++ posts b := by
  induction a with
  | nil => rfl
  | cons x xs ih => cases x <;> simp [posts, ih]

/-- The effects of `invoke`: one log call, one POST, and the close of the
response body when there is a response. -/
theorem invoke_effects (env : Env) (hist : List Effect) (route data : Bytes) :
    posts (invoke env hist route data).2 = [(route, str "application/json", data)] ∧
    commits (invoke env hist route data).2 = [] := by
  cases h : env.httpPost (hist ++ [Effect.log .info "Invoking %s\n"]) route
      (str "application/json") data with
  | error err => simp [invoke, h, posts, commits]
  | ok resp =>
    by_cases hc : resp.StatusCode = 200 <;> simp [invoke, h, hc, posts, commits]

end Lemmas

/-- C3. Function `invoke` returns nil exactly when `http.Post` returned a
response (no transport error) whose status code is 200; a transport error and
every other status code, 201 and 204 included, give a non-nil error; and the
call performs exactly one POST, to the given URL with the given body. -/
theorem invoke_outcome (env : Env) (hist : List Effect) (route data : Bytes) :
    ((invoke env hist route data).1 = none ↔
      env.httpPost (hist ++ [Effect.log .info "Invoking %s\n"]) route
        (str "application/json") data = .ok ⟨200⟩) ∧
    (∀ err, env.httpPost (hist ++ [Effect.log .info "Invoking %s\n"]) route
        (str "application/json") data = .error err →
      (invoke env hist route data).1 = some (.postFailed err)) ∧
    (∀ code, code ≠ 200 →
      env.httpPost (hist ++ [Effect.log .info "Invoking %s\n"]) route
        (str "application/json") data = .ok ⟨code⟩ →
      (invoke env hist route data).1 = some (.notOk code)) ∧
    posts (invoke env hist route data).2 = [(route, str "application/json", data)] := by
  refine ⟨?_, ?_, ?_, (invoke_effects env hist route data).1⟩
  · cases h : env.httpPost (hist ++ [Effect.log .info "Invoking %s\n"]) route
        (str "application/json") data with
    | error err => simp [invoke, h]
    | ok resp =>
      obtain ⟨code⟩ := resp
      by_cases hc : code = 200 <;> simp [invoke, h, hc]
  · intro err h
    unfold invoke
    simp [h]
  · intro code hc h
    unfold invoke
    simp [h, hc]

section LoopLemmas

theorem mem_commits (m : kafka.Message) (es : List Effect) :
    m ∈ commits es ↔ ∃ cerr, Effect.commit m cerr ∈ es := by
  induction es with
  | nil => simp [commits]
  | cons x xs ih =>
    cases x with
    | commit m0 err0 =>
      simp only [commits, List.mem_cons, ih, Effect.commit.injEq]
      constructor
      · rintro (h | ⟨c, hc⟩)
        · exact ⟨err0, Or.inl ⟨h, rfl⟩⟩
        · exact ⟨c, Or.inr hc⟩
      · rintro ⟨c, (⟨h, _⟩ | hc)⟩
        · exact Or.inl h
        · exact Or.inr ⟨c, hc⟩
    | _ => simp [commits, ih]

/-- One iteration on a message whose route key is not in the table. -/
theorem loopBody_unrouted (table : GoMap Bytes) (env : Env) (hist : List Effect)
    (e : kafka.Message) (h : table.get (e.TopicPartition.Topic ++ str ":UPDATE") = none) :
    loopBody table env hist (.Message e) =
      (.next, onMessage ++ [.log .info "Route not found"]) := by
  simp [loopBody, h]

/-- One iteration on a message whose route key is in the table: the effects
are the two opening log calls, the effects of `invoke`, and then a commit
exactly when `invoke` returned nil. -/
theorem loopBody_routed (table : GoMap Bytes) (env : Env) (hist : List Effect)
    (e : kafka.Message) (url : Bytes)
    (h : table.get (e.TopicPartition.Topic ++ str ":UPDATE") = some url) :
    loopBody table env hist (.Message e) =
      (.next, onMessage ++ (invoke env (hist ++ onMessage) url e.Value).2 ++
        match (invoke env (hist ++ onMessage) url e.Value).1 with
        | some _ => [.log .error "Invocation Error: %v\n"]
        | none =>
          match env.commitMessage
              (hist ++ (onMessage ++ (invoke env (hist ++ onMessage) url e.Value).2)) e with
          | some cerr => [.commit e (some cerr), .log .error "Commit Error: %v %v\n"]
          | none => [.commit e none]) := by
  simp only [loopBody, h, bytes, string]
  cases h1 : (invoke env (hist ++ onMessage) url e.Value).1 with
  | some err => simp
  | none =>
    cases h2 : env.commitMessage
        (hist ++ (onMessage ++ (invoke env (hist ++ onMessage) url e.Value).2)) e with
    | some cerr => simp
    | none => simp

theorem posts_onMessage : posts onMessage = [] := rfl

theorem commits_onMessage : commits onMessage = [] := rfl

/-- The commits of one iteration on a message. -/
theorem commits_loopBody_message (table : GoMap Bytes) (env : Env) (hist : List Effect)
    (e : kafka.Message) :
    commits (loopBody table env hist (.Message e)).2 =
      match table.get (e.TopicPartition.Topic ++ str ":UPDATE") with
      | none => []
      | some url =>
        match (invoke env (hist ++ onMessage) url e.Value).1 with
        | some _ => []
        | none => [e] := by
  cases h : table.get (e.TopicPartition.Topic ++ str ":UPDATE") with
  | none => simp [loopBody_unrouted table env hist e h, commits_append, commits_onMessage, commits]
  | some url =>
    rw [loopBody_routed table env hist e url h]
    simp only [commits_append, commits_onMessage, (invoke_effects _ _ _ _).2, List.nil_append]
    cases h1 : (invoke env (hist ++ onMessage) url e.Value).1 with
    | some err => simp [commits]
    | none =>
      cases h2 : env.commitMessage
          (hist ++ (onMessage ++ (invoke env (hist ++ onMessage) url e.Value).2)) e with
      | some cerr => simp [commits]
      | none => simp [commits]

end LoopLemmas

/-- C1. Commit gating: in one iteration of the consumer loop on a polled
message, `consumer.CommitMessage` is called for that message if and only if
the key `<topic>:UPDATE` is in the route table and `invoke` returned nil for
it; in that case it is called exactly once, and otherwise (no route, or
`invoke` returned an error) the iteration issues no commit at all. -/
theorem commit_gating (table : GoMap Bytes) (env : Env) (hist : List Effect)
    (e : kafka.Message) :
    ((∃ cerr, Effect.commit e cerr ∈ (loopBody table env hist (.Message e)).2) ↔
      ∃ url, table.get (e.TopicPartition.Topic ++ str ":UPDATE") = some url ∧
        (invoke env (hist ++ onMessage) url e.Value).1 = none) ∧
    ((∃ url, table.get (e.TopicPartition.Topic ++ str ":UPDATE") = some url ∧
        (invoke env (hist ++ onMessage) url e.Value).1 = none) →
      commits (loopBody table env hist (.Message e)).2 = [e]) ∧
    ((¬ ∃ url, table.get (e.TopicPartition.Topic ++ str ":UPDATE") = some url ∧
        (invoke env (hist ++ onMessage) url e.Value).1 = none) →
      commits (loopBody table env hist (.Message e)).2 = []) ∧
    (∀ url err, table.get (e.TopicPartition.Topic ++ str ":UPDATE") = some url →
      (invoke env (hist ++ onMessage) url e.Value).1 = some err →
      commits (loopBody table env hist (.Message e)).2 = []) := by
  have hc := commits_loopBody_message table env hist e
  rw [← mem_commits]
  cases h : table.get (e.TopicPartition.Topic ++ str ":UPDATE") with
  | none => simp [h] at hc; simp [hc]
  | some url =>
    cases h1 : (invoke env (hist ++ onMessage) url e.Value).1 with
    | some err => simp [h, h1] at hc; simp [hc, h1]
    | none =>
      simp [h, h1] at hc
      rw [hc]
      refine ⟨⟨fun _ => ⟨url, rfl, h1⟩, fun _ => List.mem_singleton.mpr rfl⟩,
        fun _ => rfl, fun hn => absurd ⟨url, rfl, h1⟩ hn, ?_⟩
      intro url1 err hu h2
      cases hu
      rw [h1] at h2
      cases h2

/-- Witness of C1 on the route table of `main`: a message on `PoESocial_stat`
whose handler answers 200 is committed once, one whose handler answers 500
is not committed. -/
theorem commit_gating_witness :
    commits (loopBody routes ⟨fun _ _ _ _ => .ok ⟨200⟩, fun _ _ => none⟩ []
      (.Message ⟨⟨str "PoESocial_stat", 0, 7, none⟩, [0xFF, 0x00], []⟩)).2 =
        [⟨⟨str "PoESocial_stat", 0, 7, none⟩, [0xFF, 0x00], []⟩] ∧
    commits (loopBody routes ⟨fun _ _ _ _ => .ok ⟨500⟩, fun _ _ => none⟩ []
      (.Message ⟨⟨str "PoESocial_stat", 0, 7, none⟩, [0xFF, 0x00], []⟩)).2 = [] :=
  ⟨(commit_gating routes ⟨fun _ _ _ _ => .ok ⟨200⟩, fun _ _ => none⟩ []
      ⟨⟨str "PoESocial_stat", 0, 7, none⟩, [0xFF, 0x00], []⟩).2.1
      ⟨str "http://localhost:8080/get_stashes", by decide, by decide⟩,
   (commit_gating routes ⟨fun _ _ _ _ => .ok ⟨500⟩, fun _ _ => none⟩ []
      ⟨⟨str "PoESocial_stat", 0, 7, none⟩, [0xFF, 0x00], []⟩).2.2.2
      (str "http://localhost:8080/get_stashes") (.notOk 500) (by decide) (by decide)⟩

/-- C2. Route dispatch: in one iteration of the consumer loop on a polled
message on topic T whose key `T:UPDATE` is in the route table, `invoke` is
called exactly once, with the URL stored under that key and with the bytes of
the message value as they are; it performs the only POST of the iteration,
whose body equals the value byte for byte. -/
theorem route_dispatch (table : GoMap Bytes) (env : Env) (hist : List Effect)
    (e : kafka.Message) (url : Bytes)
    (h : table.get (e.TopicPartition.Topic ++ str ":UPDATE") = some url) :
    (∃ tail, (loopBody table env hist (.Message e)).2 =
        onMessage ++ (invoke env (hist ++ onMessage) url e.Value).2 ++ tail ∧
        posts tail = []) ∧
    posts (loopBody table env hist (.Message e)).2 =
      [(url, str "application/json", e.Value)] ∧
    ∀ p ∈ posts (loopBody table env hist (.Message e)).2,
      p.2.2 = e.Value ∧ p.2.2.length = e.Value.length := by
  have key : ∃ tail, (loopBody table env hist (.Message e)).2 =
        onMessage ++ (invoke env (hist ++ onMessage) url e.Value).2 ++ tail ∧
        posts tail = [] := by
    rw [loopBody_routed table env hist e url h]
    refine ⟨_, rfl, ?_⟩
    cases h1 : (invoke env (hist ++ onMessage) url e.Value).1 with
    | some err => simp [posts]
    | none =>
      cases h2 : env.commitMessage
          (hist ++ (onMessage ++ (invoke env (hist ++ onMessage) url e.Value).2)) e with
      | some cerr => simp [posts]
      | none => simp [posts]
  have hp : posts (loopBody table env hist (.Message e)).2 =
      [(url, str "application/json", e.Value)] := by
    obtain ⟨tail, ht, hpt⟩ := key
    rw [ht, posts_append, posts_append, posts_onMessage, (invoke_effects _ _ _ _).1, hpt]
    rfl
  refine ⟨key, hp, ?_⟩
  intro p hmem
  rw [hp] at hmem
  simp at hmem
  subst hmem
  exact ⟨rfl, rfl⟩

/-- Witness of C2: a value that is not UTF-8 (bytes FF 00) on topic
`PoESocial_stat` is posted unchanged to the URL of the route table of
`main`; so is the empty value. -/
theorem route_dispatch_witness :
    posts (loopBody routes ⟨fun _ _ _ _ => .error [], fun _ _ => none⟩ []
      (.Message ⟨⟨str "PoESocial_stat", 0, 7, none⟩, [0xFF, 0x00], []⟩)).2 =
      [(str "http://localhost:8080/get_stashes", str "application/json", [0xFF, 0x00])] ∧
    posts (loopBody routes ⟨fun _ _ _ _ => .ok ⟨200⟩, fun _ _ => none⟩ []
      (.Message ⟨⟨str "PoESocial_stat", 0, 8, none⟩, [], []⟩)).2 =
      [(str "http://localhost:8080/get_stashes", str "application/json", [])] :=
  ⟨(route_dispatch routes ⟨fun _ _ _ _ => .error [], fun _ _ => none⟩ []
      ⟨⟨str "PoESocial_stat", 0, 7, none⟩, [0xFF, 0x00], []⟩
      (str "http://localhost:8080/get_stashes") (by decide)).2.1,
   (route_dispatch routes ⟨fun _ _ _ _ => .ok ⟨200⟩, fun _ _ => none⟩ []
      ⟨⟨str "PoESocial_stat", 0, 8, none⟩, [], []⟩
      (str "http://localhost:8080/get_stashes") (by decide)).2.1⟩

/-- C4. Unknown route: in one iteration of the consumer loop on a polled
message whose key `<topic>:UPDATE` is not in the route table, `invoke` is not
called (no POST), `CommitMessage` is not called, the loop goes on, and the
next polled event is handled by the loop body. -/
theorem unknown_route (table : GoMap Bytes) (env : Env) (hist : List Effect)
    (e : kafka.Message) (h : table.get (e.TopicPartition.Topic ++ str ":UPDATE") = none) :
    loopBody table env hist (.Message e) =
      (.next, onMessage ++ [.log .info "Route not found"]) ∧
    posts (loopBody table env hist (.Message e)).2 = [] ∧
    commits (loopBody table env hist (.Message e)).2 = [] ∧
    (∀ evs, consumerLoop table env hist (.Message e :: evs) =
      ((consumerLoop table env (hist ++ (onMessage ++ [.log .info "Route not found"])) evs).1,
        (onMessage ++ [.log .info "Route not found"]) ++
          (consumerLoop table env (hist ++ (onMessage ++ [.log .info "Route not found"])) evs).2)) ∧
    (∀ ev, (consumerLoop table env hist [.Message e, ev]).1 =
        (loopBody table env (hist ++ (onMessage ++ [.log .info "Route not found"])) ev).1 ∧
      (consumerLoop table env hist [.Message e, ev]).2 =
        (onMessage ++ [.log .info "Route not found"]) ++
          (loopBody table env (hist ++ (onMessage ++ [.log .info "Route not found"])) ev).2) := by
  have hb := loopBody_unrouted table env hist e h
  refine ⟨hb, ?_, ?_, ?_, ?_⟩
  · rw [hb]; rfl
  · rw [hb]; rfl
  · intro evs
    simp [consumerLoop, hb]
  · intro ev
    simp only [consumerLoop, hb]
    cases hl : loopBody table env (hist ++ (onMessage ++ [.log .info "Route not found"])) ev with
    | mk c es => cases c <;> simp

/-- Witness of C4 on the route table of `main`: a message on topic
`PoESocial_item`, which has no route, causes no POST and no commit, and the
message on `PoESocial_stat` polled after it is posted and committed. -/
theorem unknown_route_witness :
    posts (loopBody routes ⟨fun _ _ _ _ => .ok ⟨200⟩, fun _ _ => none⟩ []
      (.Message ⟨⟨str "PoESocial_item", 0, 3, none⟩, str "x", []⟩)).2 = [] ∧
    commits (loopBody routes ⟨fun _ _ _ _ => .ok ⟨200⟩, fun _ _ => none⟩ []
      (.Message ⟨⟨str "PoESocial_item", 0, 3, none⟩, str "x", []⟩)).2 = [] ∧
    commits (consumerLoop routes ⟨fun _ _ _ _ => .ok ⟨200⟩, fun _ _ => none⟩ []
      [.Message ⟨⟨str "PoESocial_item", 0, 3, none⟩, str "x", []⟩,
       .Message ⟨⟨str "PoESocial_stat", 0, 4, none⟩, str "y", []⟩]).2 =
      [⟨⟨str "PoESocial_stat", 0, 4, none⟩, str "y", []⟩] :=
  ⟨(unknown_route routes ⟨fun _ _ _ _ => .ok ⟨200⟩, fun _ _ => none⟩ []
      ⟨⟨str "PoESocial_item", 0, 3, none⟩, str "x", []⟩ (by decide)).2.1,
   (unknown_route routes ⟨fun _ _ _ _ => .ok ⟨200⟩, fun _ _ => none⟩ []
      ⟨⟨str "PoESocial_item", 0, 3, none⟩, str "x", []⟩ (by decide)).2.2.1,
   by decide⟩

/-- C10. Fatal and informational events: one iteration of the consumer loop
ends the process if and only if the polled event is a `kafka.Error`.  A nil
poll result, `PartitionEOF`, `AssignedPartitions`, `RevokedPartitions`, an
event of another type, and a message (whatever `invoke` and `CommitMessage`
return, errors included) leave the loop running; nil, `PartitionEOF` and
events of another type cause neither a POST nor a commit. -/
theorem fatal_iff_error (table : GoMap Bytes) (env : Env) (hist : List Effect) :
    (∀ ev, (loopBody table env hist ev).1 = .exit ↔ ∃ code text, ev = .Error code text) ∧
    (loopBody table env hist .none).1 = .next ∧
    (∀ tp, (loopBody table env hist (.PartitionEOF tp)).1 = .next) ∧
    (∀ ps, (loopBody table env hist (.AssignedPartitions ps)).1 = .next) ∧
    (∀ ps, (loopBody table env hist (.RevokedPartitions ps)).1 = .next) ∧
    (∀ t, (loopBody table env hist (.other t)).1 = .next) ∧
    (∀ e, (loopBody table env hist (.Message e)).1 = .next) ∧
    (posts (loopBody table env hist .none).2 = [] ∧
      commits (loopBody table env hist .none).2 = []) ∧
    (∀ tp, posts (loopBody table env hist (.PartitionEOF tp)).2 = [] ∧
      commits (loopBody table env hist (.PartitionEOF tp)).2 = []) ∧
    (∀ t, posts (loopBody table env hist (.other t)).2 = [] ∧
      commits (loopBody table env hist (.other t)).2 = []) := by
  have hmsg : ∀ e, (loopBody table env hist (.Message e)).1 = .next := by
    intro e
    cases h : table.get (e.TopicPartition.Topic ++ str ":UPDATE") with
    | none => rw [loopBody_unrouted table env hist e h]
    | some url => rw [loopBody_routed table env hist e url h]
  refine ⟨?_, rfl, fun _ => rfl, fun _ => rfl, fun _ => rfl, fun _ => rfl, hmsg,
    ⟨rfl, rfl⟩, fun _ => ⟨rfl, rfl⟩, fun _ => ⟨rfl, rfl⟩⟩
  intro ev
  cases ev with
  | Message e => simp [hmsg e]
  | Error code text => simp [loopBody]
  | _ => simp [loopBody]

/-! ## Theorems: the write proxy -/

section ProxyLemmas

theorem sent_map_send {M : Type} (ms : List M) :
    sent (ms.map ProxyEffect.send) = ms := by
  induction ms with
  | nil => rfl
  | cons m rest ih => simp [sent, ih]

/-- The decoded case of `ServeHTTP` of pkg/write_proxy.go. -/
theorem pkg_ServeHTTP_decoded (appName : Bytes)
    (unmarshal : Bytes → json.Decoded pkg.WriteRequest) (range : RangeOrder Bytes)
    (body : Bytes) (write : pkg.WriteRequest) (h : unmarshal body = .ok write) :
    pkg.ServeHTTP appName unmarshal range .fresh ⟨.ok body⟩ =
      (⟨some 200, str "ok"⟩,
        (range.order write.Entries).map fun kv =>
          ProxyEffect.send ⟨appName ++ str "_" ++ write.Topic, kv.1, kv.2, none⟩) := by
  simp [pkg.ServeHTTP, h, ResponseWriter.Write, ResponseWriter.WriteHeader,
    ResponseWriter.fresh]

theorem sent_print_send (object : Bytes) (es : List (Bytes × Bytes)) :
    sent (es.flatMap fun kv =>
      [ProxyEffect.print "Writing", ProxyEffect.send (mainMessage object kv)]) =
      es.map (mainMessage object) := by
  induction es with
  | nil => rfl
  | cons kv rest ih =>
    show sent ([ProxyEffect.print "Writing", ProxyEffect.send (mainMessage object kv)] ++
      rest.flatMap fun kv =>
        [ProxyEffect.print "Writing", ProxyEffect.send (mainMessage object kv)]) = _
    exact congrArg (List.cons (mainMessage object kv)) ih

/-- The decoded case of `ServeHTTP` of main.go. -/
theorem main_ServeHTTP_decoded (unmarshal : Bytes → json.Decoded WriteRequest)
    (range : RangeOrder Bytes) (body : Bytes) (write : WriteRequest)
    (h : unmarshal body = .ok write) :
    (ServeHTTP unmarshal range .fresh ⟨.ok body⟩).1 = ⟨some 200, str "ok"⟩ ∧
    sent (ServeHTTP unmarshal range .fresh ⟨.ok body⟩).2 =
      (range.order write.Data).map (mainMessage write.Object) := by
  constructor
  · simp [ServeHTTP, h, ResponseWriter.Write, ResponseWriter.WriteHeader,
      ResponseWriter.fresh]
  · simp only [ServeHTTP, h]
    exact sent_print_send write.Object (range.order write.Data)

end ProxyLemmas

/-- C5. Write fan-out of `ServeHTTP` in pkg/write_proxy.go: when the body
decodes to a write request with topic `t` and entries `E`, the handler sends
one message per entry of `E` and no other: the messages sent are, in the
order of the `range` statement, the entries of `E` turned into messages with
topic `appName_t`, the key's bytes and the raw value; there are `|E|` of
them; and the response has status 200 and body `ok`. -/
theorem write_fanout (appName : Bytes) (unmarshal : Bytes → json.Decoded pkg.WriteRequest)
    (range : RangeOrder Bytes) (body t : Bytes) (E : GoMap Bytes)
    (h : unmarshal body = .ok ⟨t, E⟩) :
    sent (pkg.ServeHTTP appName unmarshal range .fresh ⟨.ok body⟩).2 =
      (range.order E).map (fun kv => ⟨appName ++ str "_" ++ t, kv.1, kv.2, none⟩) ∧
    (sent (pkg.ServeHTTP appName unmarshal range .fresh ⟨.ok body⟩).2).Perm
      (E.map fun kv => ⟨appName ++ str "_" ++ t, kv.1, kv.2, none⟩) ∧
    (sent (pkg.ServeHTTP appName unmarshal range .fresh ⟨.ok body⟩).2).length = E.length ∧
    (∀ m ∈ sent (pkg.ServeHTTP appName unmarshal range .fresh ⟨.ok body⟩).2,
      m.Topic = appName ++ str "_" ++ t ∧ (m.Key, m.Value) ∈ E) ∧
    (∀ kv ∈ E, (⟨appName ++ str "_" ++ t, kv.1, kv.2, none⟩ : pkg.Message) ∈
      sent (pkg.ServeHTTP appName unmarshal range .fresh ⟨.ok body⟩).2) ∧
    (pkg.ServeHTTP appName unmarshal range .fresh ⟨.ok body⟩).1.StatusCode = 200 ∧
    (pkg.ServeHTTP appName unmarshal range .fresh ⟨.ok body⟩).1.body = str "ok" := by
  rw [pkg_ServeHTTP_decoded appName unmarshal range body ⟨t, E⟩ h]
  have hs : sent ((range.order E).map fun kv =>
      ProxyEffect.send (⟨appName ++ str "_" ++ t, kv.1, kv.2, none⟩ : pkg.Message)) =
      (range.order E).map (fun kv => ⟨appName ++ str "_" ++ t, kv.1, kv.2, none⟩) := by
    rw [← sent_map_send ((range.order E).map
      (fun kv => (⟨appName ++ str "_" ++ t, kv.1, kv.2, none⟩ : pkg.Message))), List.map_map]
    rfl
  rw [hs]
  refine ⟨rfl, (range.perm E).map _, ?_, ?_, ?_, rfl, rfl⟩
  · rw [List.length_map]; exact (range.perm E).length_eq
  · intro m hm
    obtain ⟨kv, hkv, rfl⟩ := List.mem_map.mp hm
    exact ⟨rfl, (range.perm E).mem_iff.mp hkv⟩
  · intro kv hkv
    exact List.mem_map.mpr ⟨kv, (range.perm E).mem_iff.mpr hkv, rfl⟩

/-- Witness of C5: the body of property P5 decodes to topic `stat` with
entries a = 1 and b = 2, and the handler of application `app` sends the two
messages on `app_stat`, whichever way the map is visited. -/
theorem write_fanout_witness :
    pkg.WriteRequest.Unmarshal specBody =
      .ok ⟨str "stat", [(str "a", str "1"), (str "b", str "2")]⟩ ∧
    sent (pkg.ServeHTTP (str "app") pkg.WriteRequest.Unmarshal (RangeOrder.stored _) .fresh
      ⟨.ok specBody⟩).2 =
      [⟨str "app_stat", str "a", str "1", none⟩, ⟨str "app_stat", str "b", str "2", none⟩] ∧
    sent (pkg.ServeHTTP (str "app") pkg.WriteRequest.Unmarshal (RangeOrder.reversed _) .fresh
      ⟨.ok specBody⟩).2 =
      [⟨str "app_stat", str "b", str "2", none⟩, ⟨str "app_stat", str "a", str "1", none⟩] ∧
    (pkg.ServeHTTP (str "app") pkg.WriteRequest.Unmarshal (RangeOrder.stored _) .fresh
      ⟨.ok specBody⟩).1 = ⟨some 200, str "ok"⟩ :=
  ⟨by decide,
   (write_fanout (str "app") pkg.WriteRequest.Unmarshal (RangeOrder.stored _) specBody
      (str "stat") [(str "a", str "1"), (str "b", str "2")] (by decide)).1.trans (by decide),
   (write_fanout (str "app") pkg.WriteRequest.Unmarshal (RangeOrder.reversed _) specBody
      (str "stat") [(str "a", str "1"), (str "b", str "2")] (by decide)).1.trans (by decide),
   by decide⟩

/-- C6. Malformed body, in `ServeHTTP` of main.go and of pkg/write_proxy.go:
when the body cannot be read, or `json.Unmarshal` returns an error for it, no
message is sent and the response has status 400 and an empty body; and the
status of the response to any request is 200 or 400. -/
theorem malformed_body (appName : Bytes) (unmarshal : Bytes → json.Decoded WriteRequest)
    (unmarshalPkg : Bytes → json.Decoded pkg.WriteRequest) (range : RangeOrder Bytes) :
    (∀ err, sent (ServeHTTP unmarshal range .fresh ⟨.error err⟩).2 = [] ∧
      (ServeHTTP unmarshal range .fresh ⟨.error err⟩).1.StatusCode = 400 ∧
      (ServeHTTP unmarshal range .fresh ⟨.error err⟩).1.body = []) ∧
    (∀ body e, unmarshal body = .error e →
      sent (ServeHTTP unmarshal range .fresh ⟨.ok body⟩).2 = [] ∧
      (ServeHTTP unmarshal range .fresh ⟨.ok body⟩).1.StatusCode = 400 ∧
      (ServeHTTP unmarshal range .fresh ⟨.ok body⟩).1.body = []) ∧
    (∀ err, sent (pkg.ServeHTTP appName unmarshalPkg range .fresh ⟨.error err⟩).2 = [] ∧
      (pkg.ServeHTTP appName unmarshalPkg range .fresh ⟨.error err⟩).1.StatusCode = 400 ∧
      (pkg.ServeHTTP appName unmarshalPkg range .fresh ⟨.error err⟩).1.body = []) ∧
    (∀ body e, unmarshalPkg body = .error e →
      sent (pkg.ServeHTTP appName unmarshalPkg range .fresh ⟨.ok body⟩).2 = [] ∧
      (pkg.ServeHTTP appName unmarshalPkg range .fresh ⟨.ok body⟩).1.StatusCode = 400 ∧
      (pkg.ServeHTTP appName unmarshalPkg range .fresh ⟨.ok body⟩).1.body = []) ∧
    (∀ r, (ServeHTTP unmarshal range .fresh r).1.StatusCode = 200 ∨
      (ServeHTTP unmarshal range .fresh r).1.StatusCode = 400) ∧
    (∀ r, (pkg.ServeHTTP appName unmarshalPkg range .fresh r).1.StatusCode = 200 ∨
      (pkg.ServeHTTP appName unmarshalPkg range .fresh r).1.StatusCode = 400) := by
  refine ⟨?_, ?_, ?_, ?_, ?_, ?_⟩
  · intro err
    simp [ServeHTTP, sent, ResponseWriter.WriteHeader, ResponseWriter.fresh,
      ResponseWriter.StatusCode]
  · intro body e h
    simp [ServeHTTP, h, sent, ResponseWriter.WriteHeader, ResponseWriter.fresh,
      ResponseWriter.StatusCode]
  · intro err
    simp [pkg.ServeHTTP, sent, ResponseWriter.WriteHeader, ResponseWriter.fresh,
      ResponseWriter.StatusCode]
  · intro body e h
    simp [pkg.ServeHTTP, h, sent, ResponseWriter.WriteHeader, ResponseWriter.fresh,
      ResponseWriter.StatusCode]
  · rintro ⟨_ | body⟩
    · simp [ServeHTTP, ResponseWriter.WriteHeader, ResponseWriter.fresh,
        ResponseWriter.StatusCode]
    · cases h : unmarshal body <;>
        simp [ServeHTTP, h, ResponseWriter.WriteHeader, ResponseWriter.Write,
          ResponseWriter.fresh, ResponseWriter.StatusCode]
  · rintro ⟨_ | body⟩
    · simp [pkg.ServeHTTP, ResponseWriter.WriteHeader, ResponseWriter.fresh,
        ResponseWriter.StatusCode]
    · cases h : unmarshalPkg body <;>
        simp [pkg.ServeHTTP, h, ResponseWriter.WriteHeader, ResponseWriter.Write,
          ResponseWriter.fresh, ResponseWriter.StatusCode]

/-- Witness of C6: a body cut off in the middle of the object and a body
with a number where the topic string is expected are both rejected by
`json.Unmarshal`, and both handlers answer 400 without sending. -/
theorem malformed_body_witness :
    WriteRequest.Unmarshal (str "\x7b\"object\":\"stat\",\"data\":\x7b\"a\":1") =
      .error .syntaxError ∧
    pkg.WriteRequest.Unmarshal (str "\x7b\"topic\":7,\"entries\":\x7b\"a\":1\x7d\x7d") =
      .error (.typeError .number) ∧
    (sent (ServeHTTP WriteRequest.Unmarshal (RangeOrder.stored _) .fresh
        ⟨.ok (str "\x7b\"object\":\"stat\",\"data\":\x7b\"a\":1")⟩).2 = [] ∧
      (ServeHTTP WriteRequest.Unmarshal (RangeOrder.stored _) .fresh
        ⟨.ok (str "\x7b\"object\":\"stat\",\"data\":\x7b\"a\":1")⟩).1.StatusCode = 400 ∧
      (ServeHTTP WriteRequest.Unmarshal (RangeOrder.stored _) .fresh
        ⟨.ok (str "\x7b\"object\":\"stat\",\"data\":\x7b\"a\":1")⟩).1.body = []) ∧
    (sent (pkg.ServeHTTP (str "app") pkg.WriteRequest.Unmarshal (RangeOrder.stored _) .fresh
        ⟨.ok (str "\x7b\"topic\":7,\"entries\":\x7b\"a\":1\x7d\x7d")⟩).2 = [] ∧
      (pkg.ServeHTTP (str "app") pkg.WriteRequest.Unmarshal (RangeOrder.stored _) .fresh
        ⟨.ok (str "\x7b\"topic\":7,\"entries\":\x7b\"a\":1\x7d\x7d")⟩).1.StatusCode = 400 ∧
      (pkg.ServeHTTP (str "app") pkg.WriteRequest.Unmarshal (RangeOrder.stored _) .fresh
        ⟨.ok (str "\x7b\"topic\":7,\"entries\":\x7b\"a\":1\x7d\x7d")⟩).1.body = []) :=
  ⟨by decide, by decide,
   (malformed_body (str "app") WriteRequest.Unmarshal pkg.WriteRequest.Unmarshal
      (RangeOrder.stored _)).2.1 _ .syntaxError (by decide),
   (malformed_body (str "app") WriteRequest.Unmarshal pkg.WriteRequest.Unmarshal
      (RangeOrder.stored _)).2.2.2.1 _ (.typeError .number) (by decide)⟩

/-- C8, as stated, fails: on the body of property P5, whose keys are `topic`
and `entries`, `ServeHTTP` of main.go decodes a write request with an empty
object name and no data (its JSON names are `object` and `data`), sends no
message, not two, and answers 200 `ok`. -/
theorem main_fanout_spec_body_sends_nothing :
    WriteRequest.Unmarshal specBody = .ok ⟨[], []⟩ ∧
    sent (ServeHTTP WriteRequest.Unmarshal (RangeOrder.stored _) .fresh ⟨.ok specBody⟩).2 = [] ∧
    (sent (ServeHTTP WriteRequest.Unmarshal (RangeOrder.stored _) .fresh
      ⟨.ok specBody⟩).2).length ≠ 2 ∧
    (ServeHTTP WriteRequest.Unmarshal (RangeOrder.stored _) .fresh ⟨.ok specBody⟩).1 =
      ⟨some 200, str "ok"⟩ := by
  decide

/-- C8, amended to the request schema of main.go: given the body
`{"object":"stat","data":{"a":1,"b":2}}`, the handler sends exactly two
messages to `produceChan`, both on topic `PoESocial_stat` with partition
`PartitionAny`, one with key `a` and value `1` and one with key `b` and value
`2` (raw JSON bytes), in the order of the `range` statement, and responds 200
with body `ok`. -/
theorem main_fanout_object_data (range : RangeOrder Bytes) :
    (sent (ServeHTTP WriteRequest.Unmarshal range .fresh ⟨.ok mainBody⟩).2).Perm
      [⟨⟨str "PoESocial_stat", kafka.PartitionAny, 0, none⟩, str "1", str "a"⟩,
       ⟨⟨str "PoESocial_stat", kafka.PartitionAny, 0, none⟩, str "2", str "b"⟩] ∧
    (sent (ServeHTTP WriteRequest.Unmarshal range .fresh ⟨.ok mainBody⟩).2).length = 2 ∧
    (∀ m ∈ sent (ServeHTTP WriteRequest.Unmarshal range .fresh ⟨.ok mainBody⟩).2,
      m.TopicPartition.Topic = str "PoESocial_stat" ∧
      m.TopicPartition.Partition = kafka.PartitionAny) ∧
    (ServeHTTP WriteRequest.Unmarshal range .fresh ⟨.ok mainBody⟩).1.StatusCode = 200 ∧
    (ServeHTTP WriteRequest.Unmarshal range .fresh ⟨.ok mainBody⟩).1.body = str "ok" := by
  have hd : WriteRequest.Unmarshal mainBody =
      .ok ⟨str "stat", [(str "a", str "1"), (str "b", str "2")]⟩ := by decide
  obtain ⟨hw, hs⟩ := main_ServeHTTP_decoded WriteRequest.Unmarshal range mainBody _ hd
  have hp : (sent (ServeHTTP WriteRequest.Unmarshal range .fresh ⟨.ok mainBody⟩).2).Perm
      [⟨⟨str "PoESocial_stat", kafka.PartitionAny, 0, none⟩, str "1", str "a"⟩,
       ⟨⟨str "PoESocial_stat", kafka.PartitionAny, 0, none⟩, str "2", str "b"⟩] := by
    rw [hs]
    have h2 := (range.perm [(str "a", str "1"), (str "b", str "2")]).map
      (mainMessage (str "stat"))
    have h3 : List.map (mainMessage (str "stat")) [(str "a", str "1"), (str "b", str "2")] =
      [⟨⟨str "PoESocial_stat", kafka.PartitionAny, 0, none⟩, str "1", str "a"⟩,
       ⟨⟨str "PoESocial_stat", kafka.PartitionAny, 0, none⟩, str "2", str "b"⟩] := by decide
    rw [h3] at h2
    exact h2
  refine ⟨hp, hp.length_eq, ?_, ?_, ?_⟩
  · intro m hm
    have := hp.mem_iff.mp hm
    simp only [List.mem_cons, List.mem_singleton, List.not_mem_nil, or_false] at this
    rcases this with rfl | rfl <;> exact ⟨rfl, rfl⟩
  · rw [hw]; rfl
  · rw [hw]

/-- C7, evaluated: on two successful delivery reports the goroutine logs the
first and returns; the second is never handled. -/
theorem delivery_task_returns_after_first_report :
    deliveryTask
      [.Message ⟨⟨str "PoESocial_stat", 0, 1, none⟩, str "1", str "a"⟩,
       .Message ⟨⟨str "PoESocial_stat", 0, 2, none⟩, str "2", str "b"⟩] =
      (.returned, [.log .info "Delivered message to topic %s [%d] at offset %v\n"]) ∧
    (deliveryTask
      [.Message ⟨⟨str "PoESocial_stat", 0, 1, none⟩, str "1", str "a"⟩,
       .Message ⟨⟨str "PoESocial_stat", 0, 2, none⟩, str "2", str "b"⟩]).2.length ≠ 2 := by
  decide

/-! ## Theorems: ordering in the consumer loop -/

section OrderLemmas

theorem posts_filter_isDispatch (es : List Effect) :
    posts (es.filter isDispatch) = posts es := by
  induction es with
  | nil => rfl
  | cons x xs ih => cases x <;> simp [List.filter, isDispatch, posts, ih]

theorem commits_filter_isDispatch (es : List Effect) :
    commits (es.filter isDispatch) = commits es := by
  induction es with
  | nil => rfl
  | cons x xs ih => cases x <;> simp [List.filter, isDispatch, commits, ih]

theorem posts_dispatches (ds : List Dispatch) :
    posts (ds.flatMap Dispatch.effects) =
      ds.map fun d => (d.url, str "application/json", d.m.Value) := by
  induction ds with
  | nil => rfl
  | cons d rest ih =>
    show posts (d.effects ++ rest.flatMap Dispatch.effects) = _
    rw [posts_append, ih]
    obtain ⟨m, url, reply, c⟩ := d
    cases c <;> simp [Dispatch.effects, posts]

theorem commits_dispatches (ds : List Dispatch) :
    (commits (ds.flatMap Dispatch.effects)).Sublist (ds.map fun d => d.m) := by
  induction ds with
  | nil => exact List.Sublist.slnil
  | cons d rest ih =>
    show (commits (d.effects ++ rest.flatMap Dispatch.effects)).Sublist _
    rw [commits_append]
    obtain ⟨m, url, reply, c⟩ := d
    cases c with
    | none => simpa [Dispatch.effects, commits] using ih.cons m
    | some cerr => simpa [Dispatch.effects, commits] using ih

theorem polled_cons (ev : kafka.Event) (evs : List kafka.Event) :
    polled (ev :: evs) = polled [ev] ++ polled evs := by
  cases ev <;> simp [polled]

/-- The dispatch part of the effects of `invoke`, and when it returns nil. -/
theorem invoke_dispatch (env : Env) (hist : List Effect) (route data : Bytes) :
    (invoke env hist route data).2.filter isDispatch =
      [.post route (str "application/json") data
        (env.httpPost (hist ++ [Effect.log .info "Invoking %s\n"]) route
          (str "application/json") data)] ∧
    ((invoke env hist route data).1 = none ↔
      env.httpPost (hist ++ [Effect.log .info "Invoking %s\n"]) route
        (str "application/json") data = .ok ⟨200⟩) := by
  cases h : env.httpPost (hist ++ [Effect.log .info "Invoking %s\n"]) route
      (str "application/json") data with
  | error err => simp [invoke, h, isDispatch]
  | ok resp =>
    obtain ⟨code⟩ := resp
    by_cases hc : code = 200 <;> simp [invoke, h, hc, isDispatch]

/-- One iteration handles at most one message: the polled one. -/
theorem loopBody_dispatch (table : GoMap Bytes) (env : Env) (hist : List Effect)
    (ev : kafka.Event) :
    ∃ ds : List Dispatch,
      (ds.map fun d => d.m).Sublist (polled [ev]) ∧
      (loopBody table env hist ev).2.filter isDispatch = ds.flatMap Dispatch.effects ∧
      ∀ d ∈ ds, table.get (d.m.TopicPartition.Topic ++ str ":UPDATE") = some d.url ∧
        (d.commit.isSome ↔ d.reply = .ok ⟨200⟩) := by
  cases ev with
  | Message e =>
    cases h : table.get (e.TopicPartition.Topic ++ str ":UPDATE") with
    | none =>
      refine ⟨[], List.nil_sublist _, ?_, by simp⟩
      rw [loopBody_unrouted table env hist e h]
      rfl
    | some url =>
      obtain ⟨hd, hn⟩ := invoke_dispatch env (hist ++ onMessage) url e.Value
      rw [loopBody_routed table env hist e url h]
      cases h1 : (invoke env (hist ++ onMessage) url e.Value).1 with
      | some err =>
        refine ⟨[⟨e, url, env.httpPost (hist ++ onMessage ++ [Effect.log .info "Invoking %s\n"])
          url (str "application/json") e.Value, none⟩], ?_, ?_, ?_⟩
        · simp [polled]
        · simp only [List.filter_append, hd]
          simp [onMessage, isDispatch, Dispatch.effects]
        · intro d hdm
          simp only [List.mem_singleton] at hdm
          subst hdm
          refine ⟨h, ?_⟩
          simp only [Option.isSome_none, Bool.false_eq_true, false_iff]
          intro hr
          rw [hn.mpr hr] at h1
          cases h1
      | none =>
        refine ⟨[⟨e, url, env.httpPost (hist ++ onMessage ++ [Effect.log .info "Invoking %s\n"])
          url (str "application/json") e.Value,
          some (env.commitMessage
            (hist ++ (onMessage ++ (invoke env (hist ++ onMessage) url e.Value).2)) e)⟩],
          ?_, ?_, ?_⟩
        · simp [polled]
        · simp only [List.filter_append, hd]
          cases h2 : env.commitMessage
              (hist ++ (onMessage ++ (invoke env (hist ++ onMessage) url e.Value).2)) e <;>
            simp [onMessage, isDispatch, Dispatch.effects]
        · intro d hdm
          simp only [List.mem_singleton] at hdm
          subst hdm
          exact ⟨h, by simpa using hn.mp h1⟩
  | _ => exact ⟨[], List.nil_sublist _, by simp [loopBody, isDispatch], by simp⟩

/-- The dispatch part of the effects of the loop is the concatenation of the
effects of handled messages, taken from the polled messages in poll order. -/
theorem consumerLoop_dispatch (table : GoMap Bytes) (env : Env) (evs : List kafka.Event) :
    ∀ hist : List Effect, ∃ ds : List Dispatch,
      (ds.map fun d => d.m).Sublist (polled evs) ∧
      (consumerLoop table env hist evs).2.filter isDispatch = ds.flatMap Dispatch.effects ∧
      ∀ d ∈ ds, table.get (d.m.TopicPartition.Topic ++ str ":UPDATE") = some d.url ∧
        (d.commit.isSome ↔ d.reply = .ok ⟨200⟩) := by
  induction evs with
  | nil => intro hist; exact ⟨[], List.Sublist.slnil, rfl, by simp⟩
  | cons ev evs ih =>
    intro hist
    obtain ⟨ds1, hs1, hf1, hp1⟩ := loopBody_dispatch table env hist ev
    rw [polled_cons]
    cases hl : loopBody table env hist ev with
    | mk c es =>
      rw [hl] at hf1
      cases c with
      | exit =>
        refine ⟨ds1, hs1.trans (List.sublist_append_left _ _), ?_, hp1⟩
        simp only [consumerLoop, hl]
        exact hf1
      | next =>
        obtain ⟨ds2, hs2, hf2, hp2⟩ := ih (hist ++ es)
        refine ⟨ds1 ++ ds2, ?_, ?_, ?_⟩
        · rw [List.map_append]; exact hs1.append hs2
        · simp only [consumerLoop, hl, List.filter_append, List.flatMap_append]
          rw [← hf2]
          exact congrArg (· ++ _) hf1
        · intro d hd
          rcases List.mem_append.mp hd with h | h
          · exact hp1 d h
          · exact hp2 d h

end OrderLemmas

/-- C9. Ordering in the consumer loop: for every finite sequence of polled
events, every route table and every outcome of the handlers and of the
commits, the messages handled (passed to `invoke`) are a subsequence of the
polled messages in poll order; the POST and commit effects of the run are,
message by message in that order, the POST of the message's value to its
route and then, exactly when the reply is a 200 response, the commit of that
same message, with no other POST or commit in between; so the committed
messages are a subsequence of the handled ones and of the polled ones, also
when restricted to the messages of one partition. -/
theorem dispatch_order (table : GoMap Bytes) (env : Env) (hist : List Effect)
    (evs : List kafka.Event) :
    ∃ ds : List Dispatch,
      (ds.map fun d => d.m).Sublist (polled evs) ∧
      (consumerLoop table env hist evs).2.filter isDispatch = ds.flatMap Dispatch.effects ∧
      (∀ d ∈ ds, table.get (d.m.TopicPartition.Topic ++ str ":UPDATE") = some d.url ∧
        (d.commit.isSome ↔ d.reply = .ok ⟨200⟩)) ∧
      posts (consumerLoop table env hist evs).2 =
        (ds.map fun d => (d.url, str "application/json", d.m.Value)) ∧
      (commits (consumerLoop table env hist evs).2).Sublist (ds.map fun d => d.m) ∧
      (commits (consumerLoop table env hist evs).2).Sublist (polled evs) ∧
      ∀ sel : kafka.Message → Bool,
        ((commits (consumerLoop table env hist evs).2).filter sel).Sublist
          ((polled evs).filter sel) := by
  obtain ⟨ds, hs, hf, hp⟩ := consumerLoop_dispatch table env evs hist
  have hc : (commits (consumerLoop table env hist evs).2).Sublist (ds.map fun d => d.m) := by
    rw [← commits_filter_isDispatch, hf]
    exact commits_dispatches ds
  refine ⟨ds, hs, hf, hp, ?_, hc, hc.trans hs, fun sel => (hc.trans hs).filter sel⟩
  rw [← posts_filter_isDispatch, hf]
  exact posts_dispatches ds

end Spacer
